import Mathlib

/-!
Shallow embedding of the MedPath admission-probability and counseling-strategy
engine, together with proofs about it.

Sources embedded here:
* `src/backend/enhanced_prediction_algorithm.py` — the piecewise distance-decay
  probability (`calculate_round_probability`), per-offer aggregation
  (`calculate_admission_probabilities`), the recommendation score and the main
  `predict_colleges` filtering / sorting / truncation pipeline.
* `src/models/scripts/07_enhanced_prediction_system.py` — the distribution-based
  probability (`predict_college_admission_probability`, lines 148-163) together
  with the pandas groupby aggregates (`create_college_mappings`) it reads.
* `src/models/scripts/round_prediction_engine.py` — cumulative probabilities,
  optimal-round selection, prediction confidence, confidence intervals and the
  counseling-strategy planner.

Python floats are modelled as exact rationals (`ℚ`); pandas NaN is modelled as
`Option ℚ` with `none` standing for NaN wherever the source can actually see a
NaN.  Python `int(...)` truncation, `max`/`min`, dict insertion order and the
stability of `list.sort` are modelled explicitly where they matter.
-/

namespace MedPath

/-- Clamp to the interval `[0, 1]`, i.e. Python `max(0.0, min(1.0, x))`. -/
def clamp01 (x : ℚ) : ℚ := max 0 (min 1 x)

/-- The body of the piecewise distance-decay function of
`calculate_round_probability` (enhanced_prediction_algorithm.py lines 79-90),
as a function of the absolute rank difference `diff`. -/
def probOfDiff (diff : ℚ) : ℚ :=
  if diff ≤ 10000 then 0.95 - 0.000045 * diff
  else if diff ≤ 20000 then 0.5 - 0.00004 * (diff - 10000)
  else if diff ≤ 40000 then 0.1 - 0.0000045 * (diff - 20000)
  else 0.01

/-- Embedding of `EnhancedPredictionAlgorithm.calculate_round_probability`
(enhanced_prediction_algorithm.py lines 67-92).  The `closing_rank` float is
`Option ℚ`, `none` standing for NaN (the `pd.isna` guard); the final line of
the source clamps the piecewise value to `[0.01, 0.95]`. -/
def calculate_round_probability (user_rank : ℤ) (closing_rank : Option ℚ) : ℚ :=
  match closing_rank with
  | none => 0
  | some cr =>
      if cr = 0 then 0
      else max 0.01 (min 0.95 (probOfDiff |(user_rank : ℚ) - cr|))

/-- The piecewise body is monotone non-increasing in the rank difference. -/
lemma probOfDiff_antitone {d1 d2 : ℚ} (h : d1 ≤ d2) :
    probOfDiff d2 ≤ probOfDiff d1 := by
  unfold probOfDiff
  split_ifs <;> linarith

/-- For a positive (hence non-NaN, nonzero) closing rank the clamp keeps the
piecewise value inside `[0.01, 0.95]`. -/
lemma calculate_round_probability_bounds (user_rank : ℤ) (cr : ℚ) (hcr : 0 < cr) :
    0.01 ≤ calculate_round_probability user_rank (some cr) ∧
      calculate_round_probability user_rank (some cr) ≤ 0.95 := by
  unfold calculate_round_probability
  have hne : ¬ cr = 0 := ne_of_gt hcr
  simp only [hne, if_false]
  constructor
  · exact le_max_left _ _
  · have h1 : min (0.95 : ℚ) (probOfDiff |(user_rank : ℚ) - cr|) ≤ 0.95 :=
      min_le_left _ _
    have h2 : (0.01 : ℚ) ≤ 0.95 := by norm_num
    exact max_le h2 h1

/-- C1: for every candidate rank and every positive, non-NaN closing rank, the
piecewise distance-decay estimate takes the segment values stated in the spec:
probability 0.95 at diff = 0, probability 0.50 at diff = 10000, and
probability 0.01 at every diff strictly above 40000. -/
theorem round_probability_segment_values (user_rank : ℤ) (cr : ℚ) (hcr : 0 < cr) :
    (|(user_rank : ℚ) - cr| = 0 →
        calculate_round_probability user_rank (some cr) = 0.95) ∧
    (|(user_rank : ℚ) - cr| = 10000 →
        calculate_round_probability user_rank (some cr) = 0.5) ∧
    (40000 < |(user_rank : ℚ) - cr| →
        calculate_round_probability user_rank (some cr) = 0.01) := by
  have hne : ¬ cr = 0 := ne_of_gt hcr
  refine ⟨fun h0 => ?_, fun h1 => ?_, fun h4 => ?_⟩
  · simp only [calculate_round_probability, hne, if_false, h0, probOfDiff]
    norm_num
  · simp only [calculate_round_probability, hne, if_false, h1, probOfDiff]
    norm_num
  · have hd1 : ¬ |(user_rank : ℚ) - cr| ≤ 10000 := by linarith
    have hd2 : ¬ |(user_rank : ℚ) - cr| ≤ 20000 := by linarith
    have hd3 : ¬ |(user_rank : ℚ) - cr| ≤ 40000 := by linarith
    simp only [calculate_round_probability, hne, if_false, probOfDiff,
      hd1, hd2, hd3]
    norm_num

/-- Witness for C1: the three scenario inputs of the spec (rank 25000 against
closing ranks 25000, 35000 and 70000) give 0.95, 0.50 and 0.01. -/
theorem round_probability_segment_values_witness :
    calculate_round_probability 25000 (some 25000) = 0.95 ∧
    calculate_round_probability 25000 (some 35000) = 0.5 ∧
    calculate_round_probability 25000 (some 70000) = 0.01 := by
  refine ⟨?_, ?_, ?_⟩
  · have h := (round_probability_segment_values 25000 25000 (by norm_num)).1
    apply h; norm_num
  · have h := (round_probability_segment_values 25000 35000 (by norm_num)).2.1
    apply h; norm_num
  · have h := (round_probability_segment_values 25000 70000 (by norm_num)).2.2
    apply h; norm_num

/-- Python `int(x)` truncation toward zero. -/
def intTrunc (q : ℚ) : ℤ := if 0 ≤ q then ⌊q⌋ else ⌈q⌉

/-- Python `max(values)` over a non-empty list given as head and tail: the fold
keeps the current value on ties (`max` only replaces on a strictly greater
element). -/
def pyMax (a : ℚ) (l : List ℚ) : ℚ :=
  l.foldl (fun b v => if b < v then v else b) a

/-- Python `max(d, key=d.get)` over a non-empty association list in dict
insertion order: returns the first pair attaining the maximal value. -/
def pyArgmax (a : String × ℚ) (l : List (String × ℚ)) : String × ℚ :=
  l.foldl (fun b y => if b.2 < y.2 then y else b) a

lemma le_pyMax_init (a : ℚ) (l : List ℚ) : a ≤ pyMax a l := by
  induction l generalizing a with
  | nil => simp [pyMax]
  | cons v t ih =>
      have h1 : a ≤ (if a < v then v else a) := by
        split_ifs with h
        · exact le_of_lt h
        · exact le_rfl
      exact le_trans h1 (ih (if a < v then v else a))

lemma le_pyMax_mem (a : ℚ) (l : List ℚ) : ∀ q ∈ l, q ≤ pyMax a l := by
  induction l generalizing a with
  | nil => intro q hq; simp at hq
  | cons v t ih =>
      intro q hq
      rcases List.mem_cons.mp hq with h | h
      · subst h
        have h1 : q ≤ (if a < q then q else a) := by
          split_ifs with h2
          · exact le_rfl
          · exact le_of_not_lt h2
        exact le_trans h1 (le_pyMax_init _ t)
      · exact ih _ q h

lemma pyMax_mem_cons (a : ℚ) (l : List ℚ) : pyMax a l ∈ a :: l := by
  induction l generalizing a with
  | nil => simp [pyMax]
  | cons v t ih =>
      have h := ih (if a < v then v else a)
      have hstep : pyMax a (v :: t) = pyMax (if a < v then v else a) t := rfl
      rw [hstep]
      rcases List.mem_cons.mp h with h1 | h1
      · rw [h1]
        split_ifs
        · exact List.mem_cons_of_mem _ (List.mem_cons_self _ _)
        · exact List.mem_cons_self _ _
      · exact List.mem_cons_of_mem _ (List.mem_cons_of_mem _ h1)

/-- Result record of `calculate_admission_probabilities` (the dict built at
enhanced_prediction_algorithm.py lines 130-135 and 154-159). -/
structure AdmissionData where
  round_probabilities : List (String × ℚ)
  best_round : Option String
  overall_probability : ℚ
  predicted_closing_rank : ℤ
  deriving Repr, DecidableEq

/-- Embedding of `calculate_admission_probabilities`
(enhanced_prediction_algorithm.py lines 125-159).  `closing_ranks` is the
`round_data['closing_ranks']` dict as an association list in insertion order;
its keys (`"YYYY_RN"`) are non-empty strings, so the Python truthiness test
`if best_round and ...` reduces to the `in`-dict lookup, and the
`if available_ranks else user_rank + 5000` guard of the mean fallback is
vacuous on the non-empty branch. -/
def calculate_admission_probabilities (user_rank : ℤ)
    (closing_ranks : List (String × ℚ)) : AdmissionData :=
  match closing_ranks with
  | [] =>
      { round_probabilities := []
        best_round := none
        overall_probability := 0.05
        predicted_closing_rank := user_rank + 5000 }
  | c :: cs =>
      let p := (c.1, calculate_round_probability user_rank (some c.2))
      let ps := cs.map fun x => (x.1, calculate_round_probability user_rank (some x.2))
      let bestPair := pyArgmax p ps
      let overall := pyMax p.2 (ps.map Prod.snd)
      let predicted : ℚ :=
        match List.lookup bestPair.1 (c :: cs) with
        | some cr => cr
        | none => ((c :: cs).map Prod.snd).sum / ((c :: cs).length : ℚ)
      { round_probabilities := p :: ps
        best_round := some bestPair.1
        overall_probability := overall
        predicted_closing_rank := intTrunc predicted }

/-- C4: with at least one historical observation the overall probability is the
maximum of the per-observation probabilities computed by
`calculate_round_probability`; with no observation the fallback returns overall
probability 0.05 and predicted closing rank `user_rank + 5000`. -/
theorem admission_overall_is_max (user_rank : ℤ) (l : List (String × ℚ)) :
    (l = [] →
      (calculate_admission_probabilities user_rank l).overall_probability = 0.05 ∧
      (calculate_admission_probabilities user_rank l).predicted_closing_rank =
        user_rank + 5000) ∧
    (l ≠ [] →
      (calculate_admission_probabilities user_rank l).overall_probability ∈
        l.map (fun x => calculate_round_probability user_rank (some x.2)) ∧
      ∀ q ∈ l.map (fun x => calculate_round_probability user_rank (some x.2)),
        q ≤ (calculate_admission_probabilities user_rank l).overall_probability) := by
  constructor
  · intro h
    subst h
    exact ⟨rfl, rfl⟩
  · intro h
    match l with
    | [] => exact absurd rfl h
    | c :: cs =>
        have hmap : (c :: cs).map
            (fun x => calculate_round_probability user_rank (some x.2)) =
            calculate_round_probability user_rank (some c.2) ::
              cs.map (fun x => calculate_round_probability user_rank (some x.2)) := rfl
        have hvals : (cs.map fun x =>
            (x.1, calculate_round_probability user_rank (some x.2))).map Prod.snd =
            cs.map (fun x => calculate_round_probability user_rank (some x.2)) := by
          simp
        constructor
        · show pyMax (calculate_round_probability user_rank (some c.2))
            ((cs.map fun x =>
              (x.1, calculate_round_probability user_rank (some x.2))).map Prod.snd) ∈ _
          rw [hmap, hvals]
          exact pyMax_mem_cons _ _
        · intro q hq
          rw [hmap] at hq
          show q ≤ pyMax (calculate_round_probability user_rank (some c.2))
            ((cs.map fun x =>
              (x.1, calculate_round_probability user_rank (some x.2))).map Prod.snd)
          rw [hvals]
          rcases List.mem_cons.mp hq with h1 | h1
          · subst h1
            exact le_pyMax_init _ _
          · exact le_pyMax_mem _ _ q h1

/-- Witness for C4: at rank 25000 with two observations the overall probability
is one of the two per-round probabilities, and with no observation the fallback
pair (0.05, 30000) is produced. -/
theorem admission_overall_is_max_witness :
    (calculate_admission_probabilities 25000 []).overall_probability = 0.05 ∧
    (calculate_admission_probabilities 25000 []).predicted_closing_rank = 30000 ∧
    (calculate_admission_probabilities 25000
        [("2023_R1", 30000), ("2024_R1", 26000)]).overall_probability ∈
      ([("2023_R1", (30000 : ℚ)), ("2024_R1", 26000)].map
        (fun x => calculate_round_probability 25000 (some x.2))) := by
  refine ⟨(admission_overall_is_max 25000 []).1 rfl |>.1, ?_, ?_⟩
  · have h := (admission_overall_is_max 25000 []).1 rfl |>.2
    rw [h]; norm_num
  · exact ((admission_overall_is_max 25000
      [("2023_R1", 30000), ("2024_R1", 26000)]).2 (by simp)).1

/-- C3: for a fixed positive closing rank the piecewise estimate is monotone
non-increasing in the absolute rank difference. -/
theorem round_probability_antitone (cr : ℚ) (r1 r2 : ℤ) (hcr : 0 < cr)
    (h : |(r1 : ℚ) - cr| ≤ |(r2 : ℚ) - cr|) :
    calculate_round_probability r2 (some cr) ≤
      calculate_round_probability r1 (some cr) := by
  have hne : ¬ cr = 0 := ne_of_gt hcr
  simp only [calculate_round_probability, hne, if_false]
  have hmono := probOfDiff_antitone h
  exact max_le_max le_rfl (min_le_min le_rfl hmono)

/-- Witness for C3: rank 20000 is nearer to closing rank 25000 than rank 60000
is, and indeed gets at least as large a probability. -/
theorem round_probability_antitone_witness :
    calculate_round_probability 60000 (some 25000) ≤
      calculate_round_probability 20000 (some 25000) := by
  have h := round_probability_antitone 25000 20000 60000 (by norm_num)
  apply h
  norm_num

/-- The pandas groupby `mean` aggregate over one offer key's closing ranks
(07_enhanced_prediction_system.py, `create_college_mappings`).  `none` models
the NaN that the left merge leaves when the offer key has no historical rank
rows at all, which is exactly the `pd.notna(college.get('closing_rank_mean'))`
guard of the prediction code. -/
def closing_rank_mean (hist : List ℚ) : Option ℚ :=
  match hist with
  | [] => none
  | _ => some (hist.sum / (hist.length : ℚ))

/-- The pandas groupby `std` aggregate (sample standard deviation, ddof = 1):
NaN (`none`) for a group with a single observation.  The prediction code only
asks whether the std is `> 0` (and otherwise falls to the binary branch); for a
non-NaN std those tests agree with the same tests on the variance, so the
embedding carries the rational variance instead of its irrational square
root. -/
def closing_rank_var (hist : List ℚ) : Option ℚ :=
  if 2 ≤ hist.length then
    some ((hist.map fun x => (x - hist.sum / (hist.length : ℚ)) ^ 2).sum /
      ((hist.length : ℚ) - 1))
  else none

/-- Which branch of `predict_college_admission_probability`
(07_enhanced_prediction_system.py lines 148-163) computes the probability.
The sigmoid branch value is `1 / (1 + exp(num / sqrt variance))`; the
exponential is kept symbolic and reinstated by `ProbResult.value`. -/
inductive ProbResult where
  | sigmoid (num variance : ℚ)
  | binary (admitted : Bool)
  | heuristic
  deriving Repr, DecidableEq

/-- Numeric value of a branch result.  `sig num variance` stands for the
sigmoid `1 / (1 + exp(num / sqrt variance))`; every real sigmoid satisfies
`0 < sig num variance < 1`, which is the only property the theorems assume.
The binary branch yields the literal 1.0 / 0.0 of the source and the
no-history heuristic yields 0.5. -/
def ProbResult.value (sig : ℚ → ℚ → ℚ) : ProbResult → ℚ
  | .sigmoid n v => sig n v
  | .binary b => if b then 1 else 0
  | .heuristic => 0.5

/-- Embedding of the probability computation of
`predict_college_admission_probability` (07_enhanced_prediction_system.py
lines 148-163).  Note on `std_closing_rank = college.get('closing_rank_std',
mean_closing_rank * 0.1)`: the merged `college_mappings` frame always carries
the `closing_rank_std` column (it is created unconditionally by the groupby
aggregation), so pandas `Series.get` returns the stored value even when that
value is NaN and the `0.1 * mean` default of the source is dead code; the
subsequent Python test `NaN > 0` evaluates to False, selecting the binary
branch. -/
def predict_admission_branch (user_rank : ℚ) (hist : List ℚ) : ProbResult :=
  match closing_rank_mean hist with
  | none => .heuristic
  | some m =>
      match closing_rank_var hist with
      | some v =>
          if 0 < v then .sigmoid (user_rank - m) v
          else .binary (decide (user_rank ≤ m))
      | none => .binary (decide (user_rank ≤ m))

/-- Counterexample to C2 as stated: for an offer key whose two historical
closing ranks are both 20000 the standard deviation is exactly 0, and a
candidate at rank 15000 receives probability exactly 1.0, outside
`[0.01, 0.95]`.  (The sigmoid argument is irrelevant: the binary branch never
consults it.) -/
theorem probability_range_counterexample :
    ProbResult.value (fun _ _ => 0.5)
        (predict_admission_branch 15000 [20000, 20000]) = 1 ∧
    ¬ (ProbResult.value (fun _ _ => 0.5)
        (predict_admission_branch 15000 [20000, 20000]) ≤ 0.95) := by
  have h : predict_admission_branch 15000 [20000, 20000] =
      ProbResult.binary true := by
    simp [predict_admission_branch, closing_rank_mean, closing_rank_var]
    norm_num
  rw [h]
  constructor
  · rfl
  · norm_num [ProbResult.value]

/-- C2 amended: the piecewise estimate lies in `[0.01, 0.95]` for positive
closing ranks but returns 0.0 for a NaN or zero closing rank; the
distribution-based estimate is not clamped to `[0.01, 0.95]`: it always lies
in `[0, 1]`, and whenever the standard deviation is 0 or NaN it is exactly 1.0
or exactly 0.0. -/
theorem probability_range_amended :
    (∀ (user_rank : ℤ) (cr : ℚ), 0 < cr →
      0.01 ≤ calculate_round_probability user_rank (some cr) ∧
      calculate_round_probability user_rank (some cr) ≤ 0.95) ∧
    (∀ user_rank : ℤ,
      calculate_round_probability user_rank none = 0 ∧
      calculate_round_probability user_rank (some 0) = 0) ∧
    (∀ sig : ℚ → ℚ → ℚ, (∀ n v, 0 < sig n v ∧ sig n v < 1) →
      ∀ (user_rank : ℚ) (hist : List ℚ),
        0 ≤ ProbResult.value sig (predict_admission_branch user_rank hist) ∧
        ProbResult.value sig (predict_admission_branch user_rank hist) ≤ 1) ∧
    (∀ (sig : ℚ → ℚ → ℚ) (user_rank m : ℚ) (hist : List ℚ),
      closing_rank_mean hist = some m →
      (closing_rank_var hist = some 0 ∨ closing_rank_var hist = none) →
      ProbResult.value sig (predict_admission_branch user_rank hist) =
        if user_rank ≤ m then 1 else 0) := by
  refine ⟨fun u cr hcr => calculate_round_probability_bounds u cr hcr,
    fun u => ⟨rfl, by simp [calculate_round_probability]⟩, ?_, ?_⟩
  · intro sig hsig user_rank hist
    cases hbr : predict_admission_branch user_rank hist with
    | sigmoid n v =>
        have h := hsig n v
        constructor
        · simpa [ProbResult.value] using le_of_lt h.1
        · simpa [ProbResult.value] using le_of_lt h.2
    | binary b =>
        cases b <;> simp [ProbResult.value]
    | heuristic =>
        norm_num [ProbResult.value]
  · intro sig user_rank m hist hm hv
    have hbr : predict_admission_branch user_rank hist =
        ProbResult.binary (decide (user_rank ≤ m)) := by
      rcases hv with hv | hv <;>
        simp [predict_admission_branch, hm, hv]
    rw [hbr]
    by_cases hum : user_rank ≤ m <;> simp [ProbResult.value, hum]

/-- Witness for the amended C2: concrete evaluations of both estimators. -/
theorem probability_range_amended_witness :
    (0.01 ≤ calculate_round_probability 25000 (some 30000) ∧
      calculate_round_probability 25000 (some 30000) ≤ 0.95) ∧
    calculate_round_probability 25000 none = 0 ∧
    (0 ≤ ProbResult.value (fun _ _ => 0.5)
        (predict_admission_branch 100 [200, 300, 400]) ∧
      ProbResult.value (fun _ _ => 0.5)
        (predict_admission_branch 100 [200, 300, 400]) ≤ 1) ∧
    ProbResult.value (fun _ _ => 0.5)
        (predict_admission_branch 100 [200]) = 1 := by
  refine ⟨probability_range_amended.1 25000 30000 (by norm_num),
    (probability_range_amended.2.1 25000).1,
    probability_range_amended.2.2.1 (fun _ _ => 0.5) (by norm_num) 100 [200, 300, 400],
    ?_⟩
  have h := probability_range_amended.2.2.2 (fun _ _ => 0.5) 100 200 [200]
    (by simp [closing_rank_mean]) (by right; simp [closing_rank_var])
  rw [h]
  norm_num

/-- C5, code evaluation at the failing input: for an offer key with exactly one
historical observation (closing rank 20000) the pandas std aggregate is NaN,
the `Series.get` default of 10 percent of the mean never applies, and the code
takes the binary branch — probability exactly 1.0 for a candidate at rank
15000 and exactly 0.0 at rank 25000 — instead of the sigmoid path the spec
describes. -/
theorem single_observation_takes_binary_branch :
    predict_admission_branch 15000 [20000] = ProbResult.binary true ∧
    predict_admission_branch 25000 [20000] = ProbResult.binary false := by
  constructor <;>
    simp [predict_admission_branch, closing_rank_mean, closing_rank_var] <;>
    norm_num

/-- Stable insertion of a (round, probability) pair into a list kept in
ascending round order: the new pair goes in front of the first strictly larger
round number. -/
def insertAscRound (x : ℕ × ℚ) : List (ℕ × ℚ) → List (ℕ × ℚ)
  | [] => [x]
  | y :: ys => if x.1 < y.1 then x :: y :: ys else y :: insertAscRound x ys

/-- The numeric sort of round numbers performed by
`_calculate_cumulative_probabilities` (round_prediction_engine.py lines
397-418): the source collects the `round_N` keys, sorts the round numbers and
walks the dict in that order; with distinct round keys this is exactly a sort
of the association list ascending by round number. -/
def sortRoundsAsc (l : List (ℕ × ℚ)) : List (ℕ × ℚ) :=
  l.foldl (fun acc x => insertAscRound x acc) []

/-- The accumulator loop of `_calculate_cumulative_probabilities`:
`total_prob = 1 - (1 - total_prob) * (1 - round_prob)` per round, emitting the
running value for every round. -/
def cumulativeGo (total : ℚ) : List (ℕ × ℚ) → List (ℕ × ℚ)
  | [] => []
  | (r, p) :: rest =>
      (r, 1 - (1 - total) * (1 - p)) ::
        cumulativeGo (1 - (1 - total) * (1 - p)) rest

/-- Embedding of `_calculate_cumulative_probabilities`
(round_prediction_engine.py lines 397-418), starting from `total_prob = 0.0`
over the rounds in ascending numeric order. -/
def calculate_cumulative_probabilities (l : List (ℕ × ℚ)) : List (ℕ × ℚ) :=
  cumulativeGo 0 (sortRoundsAsc l)

lemma mem_insertAscRound {x y : ℕ × ℚ} {l : List (ℕ × ℚ)} :
    y ∈ insertAscRound x l ↔ y = x ∨ y ∈ l := by
  induction l with
  | nil => simp [insertAscRound]
  | cons z zs ih =>
      unfold insertAscRound
      split_ifs
      · simp
      · simp only [List.mem_cons, ih]
        tauto

lemma mem_sortRoundsAsc_aux {y : ℕ × ℚ} (l acc : List (ℕ × ℚ)) :
    y ∈ l.foldl (fun acc x => insertAscRound x acc) acc ↔ y ∈ acc ∨ y ∈ l := by
  induction l generalizing acc with
  | nil => simp
  | cons z zs ih =>
      simp only [List.foldl_cons, ih, mem_insertAscRound, List.mem_cons]
      tauto

lemma mem_sortRoundsAsc {y : ℕ × ℚ} {l : List (ℕ × ℚ)} :
    y ∈ sortRoundsAsc l ↔ y ∈ l := by
  unfold sortRoundsAsc
  rw [mem_sortRoundsAsc_aux]
  simp

lemma cumulativeGo_map_fst (s : List (ℕ × ℚ)) :
    ∀ t, (cumulativeGo t s).map Prod.fst = s.map Prod.fst := by
  induction s with
  | nil => intro t; rfl
  | cons x rest ih =>
      intro t
      cases x with
      | mk r p => simp [cumulativeGo, ih]

lemma cumulativeGo_get (s : List (ℕ × ℚ)) :
    ∀ (t : ℚ) (n : ℕ) (hn : n < (cumulativeGo t s).length),
      ((cumulativeGo t s).get ⟨n, hn⟩).2 =
        1 - (1 - t) * ((s.take (n + 1)).map (fun x => 1 - x.2)).prod := by
  induction s with
  | nil => intro t n hn; simp [cumulativeGo] at hn
  | cons x rest ih =>
      intro t n hn
      cases x with
      | mk r p =>
          cases n with
          | zero => simp [cumulativeGo]
          | succ m =>
              have hm : m < (cumulativeGo (1 - (1 - t) * (1 - p)) rest).length := by
                simpa [cumulativeGo] using hn
              have h := ih (1 - (1 - t) * (1 - p)) m hm
              have hstep : ((cumulativeGo t ((r, p) :: rest)).get ⟨m + 1, hn⟩).2 =
                  ((cumulativeGo (1 - (1 - t) * (1 - p)) rest).get ⟨m, hm⟩).2 := rfl
              rw [hstep, h]
              simp [List.take_cons]
              ring

lemma cumulativeGo_bounds (s : List (ℕ × ℚ)) :
    ∀ t : ℚ, 0 ≤ t → t ≤ 1 → (∀ x ∈ s, 0 ≤ x.2 ∧ x.2 ≤ 1) →
      ∀ y ∈ cumulativeGo t s, 0 ≤ y.2 ∧ y.2 ≤ 1 := by
  induction s with
  | nil => intro t _ _ _ y hy; simp [cumulativeGo] at hy
  | cons x rest ih =>
      intro t ht0 ht1 hs y hy
      cases x with
      | mk r p =>
          have hp := hs (r, p) (List.mem_cons_self _ _)
          have hstep0 : 0 ≤ 1 - (1 - t) * (1 - p) := by nlinarith [hp.1, hp.2]
          have hstep1 : 1 - (1 - t) * (1 - p) ≤ 1 := by nlinarith [hp.1, hp.2]
          rcases List.mem_cons.mp hy with h | h
          · rw [h]
            exact ⟨hstep0, hstep1⟩
          · exact ih _ hstep0 hstep1
              (fun z hz => hs z (List.mem_cons_of_mem _ hz)) y h

lemma cumulativeGo_chain (s : List (ℕ × ℚ)) :
    ∀ t : ℚ, 0 ≤ t → t ≤ 1 → (∀ x ∈ s, 0 ≤ x.2 ∧ x.2 ≤ 1) →
      List.Chain' (fun a b => a.2 ≤ b.2) (cumulativeGo t s) ∧
      ∀ y ∈ (cumulativeGo t s).head?, t ≤ y.2 := by
  induction s with
  | nil => intro t _ _ _; exact ⟨List.chain'_nil, by simp [cumulativeGo]⟩
  | cons x rest ih =>
      intro t ht0 ht1 hs
      cases x with
      | mk r p =>
          have hp := hs (r, p) (List.mem_cons_self _ _)
          have hstep0 : 0 ≤ 1 - (1 - t) * (1 - p) := by nlinarith [hp.1, hp.2]
          have hstep1 : 1 - (1 - t) * (1 - p) ≤ 1 := by nlinarith [hp.1, hp.2]
          have hmono : t ≤ 1 - (1 - t) * (1 - p) := by nlinarith [hp.1, hp.2]
          have hrest := ih (1 - (1 - t) * (1 - p)) hstep0 hstep1
            (fun z hz => hs z (List.mem_cons_of_mem _ hz))
          constructor
          · rw [show cumulativeGo t ((r, p) :: rest) =
                (r, 1 - (1 - t) * (1 - p)) ::
                  cumulativeGo (1 - (1 - t) * (1 - p)) rest from rfl]
            rw [List.chain'_cons']
            exact ⟨hrest.2, hrest.1⟩
          · intro y hy
            simp only [cumulativeGo, List.head?_cons, Option.mem_def,
              Option.some.injEq] at hy
            rw [← hy]
            exact hmono

/-- C6: the cumulative-by-round values equal `1 - ∏ (1 - p_i)` over the rounds
up to position N in ascending round order, and when every per-round probability
lies in `[0, 1]` the cumulative sequence is non-decreasing and stays within
`[0, 1]`. -/
theorem cumulative_probabilities_spec (l : List (ℕ × ℚ))
    (h : ∀ x ∈ l, 0 ≤ x.2 ∧ x.2 ≤ 1) :
    (calculate_cumulative_probabilities l).map Prod.fst =
      (sortRoundsAsc l).map Prod.fst ∧
    (∀ (n : ℕ) (hn : n < (calculate_cumulative_probabilities l).length),
      ((calculate_cumulative_probabilities l).get ⟨n, hn⟩).2 =
        1 - (((sortRoundsAsc l).take (n + 1)).map (fun x => 1 - x.2)).prod) ∧
    List.Chain' (fun a b => a.2 ≤ b.2) (calculate_cumulative_probabilities l) ∧
    (∀ y ∈ calculate_cumulative_probabilities l, 0 ≤ y.2 ∧ y.2 ≤ 1) := by
  have hsorted : ∀ x ∈ sortRoundsAsc l, 0 ≤ x.2 ∧ x.2 ≤ 1 := by
    intro x hx
    exact h x (mem_sortRoundsAsc.mp hx)
  refine ⟨cumulativeGo_map_fst _ 0, ?_, ?_, ?_⟩
  · intro n hn
    have hg := cumulativeGo_get (sortRoundsAsc l) 0 n hn
    simpa [calculate_cumulative_probabilities] using hg
  · exact (cumulativeGo_chain (sortRoundsAsc l) 0 le_rfl (by norm_num) hsorted).1
  · exact cumulativeGo_bounds (sortRoundsAsc l) 0 le_rfl (by norm_num) hsorted

/-- Witness for C6 on the concrete round set {1 ↦ 1/4, 2 ↦ 1/2}. -/
theorem cumulative_probabilities_spec_witness :
    (calculate_cumulative_probabilities [(1, 1/4), (2, 1/2)]).map Prod.fst =
      (sortRoundsAsc [(1, 1/4), (2, 1/2)]).map Prod.fst ∧
    List.Chain' (fun a b => a.2 ≤ b.2)
      (calculate_cumulative_probabilities [(1, 1/4), (2, 1/2)]) := by
  have h := cumulative_probabilities_spec [(1, 1/4), (2, 1/2)]
    (by intro x hx; fin_cases hx <;> norm_num)
  exact ⟨h.1, h.2.2.1⟩

/-- Embedding of `_calculate_success_probability` (round_prediction_engine.py):
Bayesian-adjusted historical success frequency
`(successes + 1) / (total + 2)` with `successes = #{r | r ≥ candidate_air}`;
an empty history returns 0.0. -/
def calculate_success_probability (candidate_air : ℚ) (hist : List ℚ) : ℚ :=
  match hist with
  | [] => 0
  | _ =>
      ((hist.countP fun r => decide (candidate_air ≤ r)) + 1 : ℚ) /
        ((hist.length : ℚ) + 2)

/-- The per-round probability of `_calculate_round_probabilities`
(round_prediction_engine.py lines 330-347): the historical success rate times
an exponential rank adjustment when the historical median is positive (the
adjustment `adj = exp(-(predicted_rank - median)/median)` is kept symbolic;
only its strict positivity is used), clamped to `[0, 1]`. -/
def adjusted_round_probability (base adj median : ℚ) : ℚ :=
  clamp01 (if 0 < median then base * adj else base)

/-- Every non-empty history yields a strictly positive success probability:
the Bayesian prior keeps it at least `1 / (n + 2)`. -/
lemma calculate_success_probability_pos (candidate_air : ℚ) (hist : List ℚ)
    (h : hist ≠ []) : 0 < calculate_success_probability candidate_air hist := by
  match hist with
  | [] => exact absurd rfl h
  | x :: xs =>
      show 0 < ((((x :: xs).countP fun r => decide (candidate_air ≤ r)) + 1 : ℚ) /
        (((x :: xs).length : ℚ) + 2))
      apply div_pos
      · positivity
      · positivity

/-- A positive base probability with a positive exponential adjustment stays
strictly positive after the `[0, 1]` clamp, so the per-round probabilities of
the round engine are never exactly 0. -/
lemma adjusted_round_probability_pos (base adj median : ℚ)
    (hb : 0 < base) (ha : 0 < adj) :
    0 < adjusted_round_probability base adj median := by
  unfold adjusted_round_probability clamp01
  have hx : 0 < (if 0 < median then base * adj else base) := by
    split_ifs
    · exact mul_pos hb ha
    · exact hb
  have h1 : 0 < min 1 (if 0 < median then base * adj else base) :=
    lt_min (by norm_num) hx
  exact lt_max_of_lt_right h1

/-- One step of the scan in `_determine_optimal_round`
(round_prediction_engine.py lines 420-440): the pair `(best_prob, best_round)`
is replaced only on a strictly greater probability, so the first maximal
element in iteration order wins ties. -/
def optimalStep (acc : ℚ × Option ℕ) (x : ℕ × ℚ) : ℚ × Option ℕ :=
  if acc.1 < x.2 then (x.2, some x.1) else acc

/-- Embedding of `_determine_optimal_round`: iterate over the per-round
predictions in dict insertion order (ascending round number, as built by
`_analyze_historical_rounds` from `sorted(... .unique())`) starting from
`best_prob = 0.0`, `best_round = None`; return `None` when no probability ever
exceeded 0.0, mirroring the `'Insufficient data'` early return. -/
def determine_optimal_round (l : List (ℕ × ℚ)) : Option (ℕ × ℚ) :=
  let res := l.foldl optimalStep (0, none)
  match res.2 with
  | none => none
  | some r => some (r, res.1)

lemma optimalStep_fold_fst (l : List (ℕ × ℚ)) :
    ∀ (b : ℚ) (o : Option ℕ),
      (l.foldl optimalStep (b, o)).1 = pyMax b (l.map Prod.snd) := by
  induction l with
  | nil => intro b o; rfl
  | cons a t ih =>
      intro b o
      have hfold : (a :: t).foldl optimalStep (b, o) =
          t.foldl optimalStep (optimalStep (b, o) a) := rfl
      have hpm : pyMax b (a.2 :: t.map Prod.snd) =
          pyMax (if b < a.2 then a.2 else b) (t.map Prod.snd) := rfl
      rw [show (a :: t).map Prod.snd = a.2 :: t.map Prod.snd from rfl, hfold, hpm]
      by_cases h : b < a.2
      · have hstep : optimalStep (b, o) a = (a.2, some a.1) := by
          unfold optimalStep; rw [if_pos h]
        rw [hstep, ih a.2 (some a.1), if_pos h]
      · have hstep : optimalStep (b, o) a = (b, o) := by
          unfold optimalStep; rw [if_neg h]
        rw [hstep, ih b o, if_neg h]

lemma optimalStep_fold_round (l : List (ℕ × ℚ)) :
    ∀ (b : ℚ) (o : Option ℕ),
      List.Pairwise (fun a c => a.1 < c.1) l →
      ((l.foldl optimalStep (b, o)).1 = b ∧ (l.foldl optimalStep (b, o)).2 = o) ∨
      (∃ r, (l.foldl optimalStep (b, o)).2 = some r ∧
        (r, (l.foldl optimalStep (b, o)).1) ∈ l ∧
        b < (l.foldl optimalStep (b, o)).1 ∧
        ∀ x ∈ l, x.2 = (l.foldl optimalStep (b, o)).1 → r ≤ x.1) := by
  induction l with
  | nil => intro b o _; exact Or.inl ⟨rfl, rfl⟩
  | cons a t ih =>
      intro b o hasc
      have hasc_t := (List.pairwise_cons.mp hasc).2
      have hasc_a := (List.pairwise_cons.mp hasc).1
      have hfold : (a :: t).foldl optimalStep (b, o) =
          t.foldl optimalStep (optimalStep (b, o) a) := rfl
      by_cases h : b < a.2
      · have hstep : optimalStep (b, o) a = (a.2, some a.1) := by
          unfold optimalStep; rw [if_pos h]
        rcases ih a.2 (some a.1) hasc_t with ⟨h1, h2⟩ | ⟨r, h1, h2, h3, h4⟩
        · right
          refine ⟨a.1, ?_, ?_, ?_, ?_⟩
          · rw [hfold, hstep, h2]
          · rw [hfold, hstep, h1]
            exact List.mem_cons_self _ _
          · rw [hfold, hstep, h1]; exact h
          · intro x hx _
            rcases List.mem_cons.mp hx with hxa | hxt
            · rw [hxa]
            · exact le_of_lt (hasc_a x hxt)
        · right
          refine ⟨r, ?_, ?_, ?_, ?_⟩
          · rw [hfold, hstep]; exact h1
          · rw [hfold, hstep]
            exact List.mem_cons_of_mem _ h2
          · rw [hfold, hstep]
            exact lt_trans h h3
          · intro x hx hxval
            rw [hfold, hstep] at hxval
            rcases List.mem_cons.mp hx with hxa | hxt
            · exfalso
              rw [hxa] at hxval
              exact absurd h3 (not_lt_of_le (le_of_eq hxval.symm))
            · exact h4 x hxt hxval
      · have hstep : optimalStep (b, o) a = (b, o) := by
          unfold optimalStep; rw [if_neg h]
        rcases ih b o hasc_t with ⟨h1, h2⟩ | ⟨r, h1, h2, h3, h4⟩
        · left
          rw [hfold, hstep]
          exact ⟨h1, h2⟩
        · right
          refine ⟨r, ?_, ?_, ?_, ?_⟩
          · rw [hfold, hstep]; exact h1
          · rw [hfold, hstep]
            exact List.mem_cons_of_mem _ h2
          · rw [hfold, hstep]; exact h3
          · intro x hx hxval
            rw [hfold, hstep] at hxval
            rcases List.mem_cons.mp hx with hxa | hxt
            · exfalso
              have hab : a.2 ≤ b := le_of_not_lt h
              rw [hxa] at hxval
              rw [hxval] at hab
              exact absurd h3 (not_lt_of_le hab)
            · exact h4 x hxt hxval

/-- C7: on a non-empty per-round prediction set, listed in ascending round
order with at least one strictly positive probability (which the round engine
always produces: the Bayesian success rate and the exponential adjustment are
strictly positive), the optimal round is a round of maximal single-round
probability, and among maximal rounds the lowest-numbered one is returned. -/
theorem optimal_round_spec (l : List (ℕ × ℚ))
    (_hne : l ≠ [])
    (hasc : List.Pairwise (fun a c => a.1 < c.1) l)
    (hpos : ∃ x ∈ l, 0 < x.2) :
    ∃ r p, determine_optimal_round l = some (r, p) ∧ (r, p) ∈ l ∧
      (∀ x ∈ l, x.2 ≤ p) ∧ (∀ x ∈ l, x.2 = p → r ≤ x.1) := by
  obtain ⟨w, hw, hwpos⟩ := hpos
  have hfst := optimalStep_fold_fst l 0 none
  have hub : ∀ x ∈ l, x.2 ≤ (l.foldl optimalStep (0, none)).1 := by
    intro x hx
    rw [hfst]
    exact le_pyMax_mem 0 _ x.2 (List.mem_map_of_mem Prod.snd hx)
  rcases optimalStep_fold_round l 0 none hasc with ⟨h1, _⟩ | ⟨r, h1, h2, _, h4⟩
  · exfalso
    have := hub w hw
    rw [h1] at this
    exact absurd this (not_le_of_lt hwpos)
  · refine ⟨r, (l.foldl optimalStep (0, none)).1, ?_, h2, hub, h4⟩
    simp only [determine_optimal_round]
    rw [h1]

/-- Witness for C7: rounds 1 and 2 tie at probability 1/2, round 3 trails at
1/4; the engine returns round 1 with probability 1/2. -/
theorem optimal_round_spec_witness :
    determine_optimal_round [(1, 1/2), (2, 1/2), (3, 1/4)] = some (1, 1/2) := by
  obtain ⟨r, p, heq, hmem, hub, hmin⟩ :=
    optimal_round_spec [(1, 1/2), (2, 1/2), (3, 1/4)] (by simp)
      (by simp [List.pairwise_cons])
      ⟨(1, 1/2), by simp, by norm_num⟩
  simp only [List.mem_cons, List.not_mem_nil, or_false] at hmem
  rcases hmem with hm | hm | hm
  · rw [heq, hm]
  · exfalso
    have h1 := hmin (1, 1/2) (by simp) (by
      have := congrArg Prod.snd hm; simpa using this.symm)
    have h2 := congrArg Prod.fst hm
    simp at h2
    omega
  · exfalso
    have h1 := hub (1, 1/2) (by simp)
    have h2 := congrArg Prod.snd hm
    simp at h2
    rw [h2] at h1
    norm_num at h1

/-- The categorical confidence label of `_calculate_prediction_confidence`
(the source uses the strings High / Medium / Low). -/
inductive ConfidenceLevel where
  | low
  | medium
  | high
  deriving Repr, DecidableEq

/-- Embedding of `_calculate_prediction_confidence`
(round_prediction_engine.py lines 367-382): coefficient of variation
`std / mean` (1 when the mean is not positive), High for at least 2 years of
data and CV below 0.2, Medium for at least 1 year and CV below 0.4, Low
otherwise. -/
def calculate_prediction_confidence (years : ℕ) (std_rank mean_rank : ℚ) :
    ConfidenceLevel :=
  let cv := if 0 < mean_rank then std_rank / mean_rank else 1
  if 2 ≤ years ∧ cv < 0.2 then .high
  else if 1 ≤ years ∧ cv < 0.4 then .medium
  else .low

/-- The interval half-width of `_calculate_confidence_intervals`
(round_prediction_engine.py lines 442-475). -/
def marginOfError : ConfidenceLevel → ℚ
  | .high => 0.05
  | .medium => 0.10
  | .low => 0.15

/-- The (lower, upper) bounds of `_calculate_confidence_intervals`:
`max(0.0, prob - margin)` and `min(1.0, prob + margin)`. -/
def calculate_confidence_interval (prob : ℚ) (conf : ConfidenceLevel) : ℚ × ℚ :=
  (max 0 (prob - marginOfError conf), min 1 (prob + marginOfError conf))

/-- C8: with a positive mean closing rank the confidence estimator returns
High exactly when at least 2 years of data exist and CV is below 0.2, Medium
exactly when at least 1 year exists and CV is below 0.4 and High does not
apply, Low otherwise; the interval uses margins 0.05 / 0.10 / 0.15 around the
point probability with the bounds clamped to `[0, 1]`. -/
theorem confidence_level_spec (years : ℕ) (std_rank mean_rank p : ℚ)
    (hmean : 0 < mean_rank) :
    ((calculate_prediction_confidence years std_rank mean_rank =
        ConfidenceLevel.high ↔
      2 ≤ years ∧ std_rank / mean_rank < 0.2) ∧
     (calculate_prediction_confidence years std_rank mean_rank =
        ConfidenceLevel.medium ↔
      (1 ≤ years ∧ std_rank / mean_rank < 0.4) ∧
        ¬ (2 ≤ years ∧ std_rank / mean_rank < 0.2)) ∧
     (calculate_prediction_confidence years std_rank mean_rank =
        ConfidenceLevel.low ↔
      ¬ (2 ≤ years ∧ std_rank / mean_rank < 0.2) ∧
        ¬ (1 ≤ years ∧ std_rank / mean_rank < 0.4))) ∧
    (marginOfError ConfidenceLevel.high = 0.05 ∧
     marginOfError ConfidenceLevel.medium = 0.10 ∧
     marginOfError ConfidenceLevel.low = 0.15) ∧
    (∀ lv : ConfidenceLevel,
      (calculate_confidence_interval p lv).1 = max 0 (p - marginOfError lv) ∧
      (calculate_confidence_interval p lv).2 = min 1 (p + marginOfError lv) ∧
      0 ≤ (calculate_confidence_interval p lv).1 ∧
      (calculate_confidence_interval p lv).2 ≤ 1) := by
  have hcv : calculate_prediction_confidence years std_rank mean_rank =
      (if 2 ≤ years ∧ std_rank / mean_rank < 0.2 then ConfidenceLevel.high
       else if 1 ≤ years ∧ std_rank / mean_rank < 0.4 then ConfidenceLevel.medium
       else ConfidenceLevel.low) := by
    simp only [calculate_prediction_confidence]
    rw [if_pos hmean]
  refine ⟨?_, ⟨rfl, rfl, rfl⟩, ?_⟩
  · rw [hcv]
    split_ifs with h1 h2 <;> simp_all
  · intro lv
    exact ⟨rfl, rfl, le_max_left _ _, min_le_left _ _⟩

/-- Witness for C8 on the spec's Scenario 5 data (two years, closing ranks
20000 and 22000: mean 21000, population std 1000, CV below 0.2): level High
and a clamped interval. -/
theorem confidence_level_spec_witness :
    calculate_prediction_confidence 2 1000 21000 = ConfidenceLevel.high ∧
    0 ≤ (calculate_confidence_interval (1/2) ConfidenceLevel.high).1 ∧
    (calculate_confidence_interval (1/2) ConfidenceLevel.high).2 ≤ 1 := by
  have h := confidence_level_spec 2 1000 21000 (1/2) (by norm_num)
  refine ⟨h.1.1.mpr ⟨by norm_num, by norm_num⟩, ?_, ?_⟩
  · exact (h.2.2 ConfidenceLevel.high).2.2.1
  · exact (h.2.2 ConfidenceLevel.high).2.2.2

/-- Stable insertion for a descending sort by a rational key: the new element
goes in front of the first strictly smaller key, hence after all elements with
an equal key, which is exactly the stability contract of Python
`list.sort(key=..., reverse=True)`. -/
def insertDescBy {α : Type} (key : α → ℚ) (x : α) : List α → List α
  | [] => [x]
  | y :: ys => if key y < key x then x :: y :: ys else y :: insertDescBy key x ys

/-- Stable descending sort by a rational key (the extensional behaviour of
Python's stable `sort(..., reverse=True)`). -/
def sortDescBy {α : Type} (key : α → ℚ) (l : List α) : List α :=
  l.foldl (fun acc x => insertDescBy key x acc) []

lemma mem_insertDescBy {α : Type} {key : α → ℚ} {x y : α} {l : List α} :
    y ∈ insertDescBy key x l ↔ y = x ∨ y ∈ l := by
  induction l with
  | nil => simp [insertDescBy]
  | cons z zs ih =>
      unfold insertDescBy
      split_ifs
      · simp
      · simp only [List.mem_cons, ih]
        tauto

lemma mem_sortDescBy_aux {α : Type} {key : α → ℚ} {y : α}
    (l acc : List α) :
    y ∈ l.foldl (fun acc x => insertDescBy key x acc) acc ↔ y ∈ acc ∨ y ∈ l := by
  induction l generalizing acc with
  | nil => simp
  | cons z zs ih =>
      simp only [List.foldl_cons, ih, mem_insertDescBy, List.mem_cons]
      tauto

lemma mem_sortDescBy {α : Type} {key : α → ℚ} {y : α} {l : List α} :
    y ∈ sortDescBy key l ↔ y ∈ l := by
  unfold sortDescBy
  rw [mem_sortDescBy_aux]
  simp

lemma pairwise_insertDescBy {α : Type} {key : α → ℚ} {x : α} {l : List α}
    (h : List.Pairwise (fun a b => key b ≤ key a) l) :
    List.Pairwise (fun a b => key b ≤ key a) (insertDescBy key x l) := by
  induction l with
  | nil => simp [insertDescBy]
  | cons y ys ih =>
      obtain ⟨hy, hys⟩ := List.pairwise_cons.mp h
      unfold insertDescBy
      split_ifs with hlt
      · refine List.pairwise_cons.mpr ⟨?_, h⟩
        intro z hz
        rcases List.mem_cons.mp hz with hz | hz
        · rw [hz]; exact le_of_lt hlt
        · exact le_trans (hy z hz) (le_of_lt hlt)
      · refine List.pairwise_cons.mpr ⟨?_, ih hys⟩
        intro z hz
        rcases mem_insertDescBy.mp hz with hz | hz
        · rw [hz]; exact le_of_not_lt hlt
        · exact hy z hz

lemma sortDescBy_sorted_aux {α : Type} {key : α → ℚ} (l acc : List α)
    (hacc : List.Pairwise (fun a b => key b ≤ key a) acc) :
    List.Pairwise (fun a b => key b ≤ key a)
      (l.foldl (fun acc x => insertDescBy key x acc) acc) := by
  induction l generalizing acc with
  | nil => exact hacc
  | cons z zs ih =>
      exact ih (insertDescBy key z acc) (pairwise_insertDescBy hacc)

lemma sortDescBy_sorted {α : Type} (key : α → ℚ) (l : List α) :
    List.Pairwise (fun a b => key b ≤ key a) (sortDescBy key l) :=
  sortDescBy_sorted_aux l [] List.Pairwise.nil

/-- The append-with-cap loop of `_generate_counseling_strategy`: an element is
appended only when it passes the predicate and the group has not reached its
cap; the scan continues over the whole list either way. -/
def cappedFilter {α : Type} (keep : α → Bool) (cap : ℕ) (acc : List α) :
    List α → List α
  | [] => acc
  | x :: xs =>
      cappedFilter keep cap
        (if keep x ∧ acc.length < cap then acc ++ [x] else acc) xs

lemma cappedFilter_eq {α : Type} (keep : α → Bool) (cap : ℕ) :
    ∀ (l acc : List α), acc.length ≤ cap →
      cappedFilter keep cap acc l = acc ++ (l.filter keep).take (cap - acc.length) := by
  intro l
  induction l with
  | nil => intro acc _; simp [cappedFilter]
  | cons x xs ih =>
      intro acc hacc
      unfold cappedFilter
      by_cases hk : keep x
      · by_cases hlen : acc.length < cap
        · rw [if_pos ⟨hk, hlen⟩]
          rw [ih (acc ++ [x]) (by simp; omega)]
          have hfil : (x :: xs).filter keep = x :: xs.filter keep := by
            simp [List.filter_cons, hk]
          rw [hfil]
          have htake : (x :: xs.filter keep).take (cap - acc.length) =
              x :: (xs.filter keep).take (cap - (acc ++ [x]).length) := by
            have h1 : cap - acc.length = (cap - (acc ++ [x]).length) + 1 := by
              simp; omega
            rw [h1, List.take_succ_cons]
          rw [htake]
          simp
        · rw [if_neg (fun hc => hlen hc.2)]
          rw [ih acc hacc]
          have hcap : cap - acc.length = 0 := by omega
          simp [hcap]
      · rw [if_neg (fun hc => hk hc.1)]
        rw [ih acc hacc]
        have hfil : (x :: xs).filter keep = xs.filter keep := by
          simp [List.filter_cons, hk]
        rw [hfil]

/-- The overall-approach label of `_generate_counseling_strategy` (the source
uses descriptive strings starting with Aggressive / Balanced /
Conservative). -/
inductive Approach where
  | aggressive
  | balanced
  | conservative
  deriving Repr, DecidableEq

/-- The strategy record assembled by `_generate_counseling_strategy`
(round_prediction_engine.py lines 477-548), restricted to the fields the spec
talks about. -/
structure CounselingStrategy where
  recommended_approach : Approach
  priority_rounds : List (ℕ × ℚ)
  backup_options : List (ℕ × ℚ)
  deriving Repr, DecidableEq

/-- Embedding of `_generate_counseling_strategy`: the (round, probability)
pairs are sorted descending by probability with Python's stable sort, the
empty case is the `'Insufficient data'` early return, and the two groups are
filled by capped scans over the sorted list with thresholds
`max(0.3, best_prob * 0.5)` and `[0.1, threshold)`. -/
def generate_counseling_strategy (l : List (ℕ × ℚ)) : Option CounselingStrategy :=
  match sortDescBy (fun x => x.2) l with
  | [] => none
  | best :: rest =>
      some
        { recommended_approach :=
            if 0.7 ≤ best.2 then .aggressive
            else if 0.4 ≤ best.2 then .balanced
            else .conservative
          priority_rounds :=
            cappedFilter (fun x => decide (max 0.3 (best.2 * 0.5) ≤ x.2)) 3 []
              (best :: rest)
          backup_options :=
            cappedFilter
              (fun x => decide (0.1 ≤ x.2 ∧ x.2 < max 0.3 (best.2 * 0.5))) 2 []
              (best :: rest) }

/-- C9: for a non-empty prediction set with maximal probability bestP, the
priority group is exactly the first 3 entries of the descending-sorted list
with p at least `max(0.3, bestP/2)` (hence itself in descending order of p),
the backup group is exactly the first 2 entries with `0.1 ≤ p` below that
threshold, and the approach label is Aggressive for bestP at least 0.7,
Balanced for bestP at least 0.4, Conservative otherwise. -/
theorem counseling_strategy_spec (l : List (ℕ × ℚ)) (hne : l ≠ []) :
    ∃ best rest, sortDescBy (fun x => x.2) l = best :: rest ∧
      (∀ x ∈ l, x.2 ≤ best.2) ∧
      generate_counseling_strategy l = some
        { recommended_approach :=
            if 0.7 ≤ best.2 then Approach.aggressive
            else if 0.4 ≤ best.2 then Approach.balanced
            else Approach.conservative
          priority_rounds := ((sortDescBy (fun x => x.2) l).filter
            (fun x => decide (max 0.3 (best.2 * 0.5) ≤ x.2))).take 3
          backup_options := ((sortDescBy (fun x => x.2) l).filter
            (fun x => decide (0.1 ≤ x.2 ∧ x.2 < max 0.3 (best.2 * 0.5)))).take 2 } ∧
      List.Pairwise (fun a b => b.2 ≤ a.2)
        (((sortDescBy (fun x => x.2) l).filter
          (fun x => decide (max 0.3 (best.2 * 0.5) ≤ x.2))).take 3) := by
  have hsorted := sortDescBy_sorted (fun x : ℕ × ℚ => x.2) l
  cases hs : sortDescBy (fun x : ℕ × ℚ => x.2) l with
  | nil =>
      exfalso
      match l, hne with
      | x :: xs, _ =>
          have : x ∈ sortDescBy (fun x : ℕ × ℚ => x.2) (x :: xs) :=
            mem_sortDescBy.mpr (List.mem_cons_self _ _)
          rw [hs] at this
          simp at this
  | cons best rest =>
      rw [hs] at hsorted
      refine ⟨best, rest, rfl, ?_, ?_, ?_⟩
      · intro x hx
        have hx2 : x ∈ best :: rest := by
          rw [← hs]
          exact mem_sortDescBy.mpr hx
        rcases List.mem_cons.mp hx2 with h | h
        · rw [h]
        · exact (List.pairwise_cons.mp hsorted).1 x h
      · simp only [generate_counseling_strategy]
        rw [hs]
        have hp := cappedFilter_eq
          (fun x : ℕ × ℚ => decide (max 0.3 (best.2 * 0.5) ≤ x.2)) 3
          (best :: rest) [] (by simp)
        have hb := cappedFilter_eq
          (fun x : ℕ × ℚ => decide (0.1 ≤ x.2 ∧ x.2 < max 0.3 (best.2 * 0.5))) 2
          (best :: rest) [] (by simp)
        simp only [List.nil_append, List.length_nil, Nat.sub_zero] at hp hb
        refine congrArg some ?_
        rw [hp, hb]
      · have hfil : List.Pairwise (fun a b : ℕ × ℚ => b.2 ≤ a.2)
            ((best :: rest).filter
              (fun x => decide (max 0.3 (best.2 * 0.5) ≤ x.2))) :=
          List.Pairwise.sublist (List.filter_sublist _) hsorted
        have htake : List.Pairwise (fun a b : ℕ × ℚ => b.2 ≤ a.2)
            (((best :: rest).filter
              (fun x => decide (max 0.3 (best.2 * 0.5) ≤ x.2))).take 3) :=
          List.Pairwise.sublist (List.take_sublist 3 _) hfil
        exact htake

/-- Witness for C9: probabilities {1 ↦ 1/4, 2 ↦ 3/4}; bestP = 3/4 gives the
Aggressive label, threshold 3/8, priority group [(2, 3/4)] and backup group
[(1, 1/4)]. -/
theorem counseling_strategy_spec_witness :
    generate_counseling_strategy [(1, 1/4), (2, 3/4)] = some
      { recommended_approach := Approach.aggressive
        priority_rounds := [(2, 3/4)]
        backup_options := [(1, 1/4)] } := by
  obtain ⟨best, rest, hs, hmax, hstrat, hpair⟩ :=
    counseling_strategy_spec [(1, 1/4), (2, 3/4)] (by simp)
  have hsort : sortDescBy (fun x : ℕ × ℚ => x.2) [(1, 1/4), (2, 3/4)] =
      [(2, 3/4), (1, 1/4)] := by
    norm_num [sortDescBy, insertDescBy]
  rw [hsort] at hs
  have hbest : best = ((2 : ℕ), (3/4 : ℚ)) := (List.cons.injEq _ _ _ _ ▸ hs).1.symm
  rw [hstrat, hbest, hsort]
  have hthr : max (0.3 : ℚ) ((3 : ℚ)/4 * 0.5) = 3/8 := by
    rw [max_eq_right] <;> norm_num
  norm_num [hthr, List.filter_cons]

/-- Round-half-to-even on a rational, the semantics of Python's built-in
`round` at integer precision. -/
def halfEvenRound (q : ℚ) : ℤ :=
  if Int.fract q < 1/2 then ⌊q⌋
  else if 1/2 < Int.fract q then ⌊q⌋ + 1
  else if ⌊q⌋ % 2 = 0 then ⌊q⌋ else ⌊q⌋ + 1

/-- Python `round(x, 3)` modelled exactly on rationals. -/
def round3 (q : ℚ) : ℚ := (halfEvenRound (q * 1000) : ℚ) / 1000

lemma floor_le_halfEvenRound (q : ℚ) : ⌊q⌋ ≤ halfEvenRound q := by
  unfold halfEvenRound
  split_ifs <;> omega

/-- Rounding to three decimals cannot take a value that is at least 0.05 below
0.05 (0.05 has only two decimals, so its floor at three decimals is exact). -/
lemma round3_ge_005 {x : ℚ} (h : 0.05 ≤ x) : 0.05 ≤ round3 x := by
  have h50 : (50 : ℤ) ≤ ⌊x * 1000⌋ := by
    apply Int.le_floor.mpr
    push_cast
    linarith
  have h2 := floor_le_halfEvenRound (x * 1000)
  have h3 : (50 : ℚ) ≤ ((halfEvenRound (x * 1000) : ℤ) : ℚ) := by
    exact_mod_cast le_trans h50 h2
  unfold round3
  linarith

/-- One data row of the filtered CSV frame as `predict_colleges` consumes it:
the fields read by `calculate_enhanced_recommendation_score`, plus the
per-(year, round) closing ranks already extracted by `extract_round_data`
(which keeps exactly the non-NaN, strictly positive `CR <year> <round>`
entries, keyed `"YYYY_RN"`, in column order).  `none` models NaN / missing. -/
structure CollegeRow where
  institute : String
  course : String
  state : String
  category : String
  quota : String
  fee : Option ℚ
  stipend_year1 : Option ℚ
  bond_years : Option ℚ
  closing_ranks : List (String × ℚ)

/-- Embedding of `calculate_enhanced_recommendation_score`
(enhanced_prediction_algorithm.py lines 161-214).  The
`admission_data.get('predicted_closing_rank', user_rank + 5000)` default never
fires because `calculate_admission_probabilities` always sets the key.  The
missing-fee branch contributes the neutral 0.05 of the source; missing stipend
or bond contributes nothing, and the final value is clamped to `[0, 1]`. -/
def calculate_enhanced_recommendation_score (row : CollegeRow) (user_rank : ℤ)
    (admission : AdmissionData) (preferred_state : String) : ℚ :=
  let s1 := admission.overall_probability * 0.5
  let predicted : ℚ := (admission.predicted_closing_rank : ℚ)
  let s2 := if (user_rank : ℚ) ≤ predicted then
      s1 + min 0.15 ((predicted - (user_rank : ℚ)) / predicted * 0.15)
    else s1
  let s3 := if row.quota.containsSubstr "Govt" || row.quota.containsSubstr "Government"
    then s2 + 0.1
    else if row.quota.containsSubstr "Private" then s2 + 0.05 else s2
  let s4 := match row.fee with
    | some f => if f ≤ 100000 then s3 + 0.1 else if f ≤ 500000 then s3 + 0.05 else s3
    | none => s3 + 0.05
  let s5 := match row.stipend_year1 with
    | some st => if 0 < st then s4 + 0.05 else s4
    | none => s4
  let s6 := match row.bond_years with
    | some b =>
        if b = 0 then s5 + 0.05
        else if b ≤ 2 then s5 + 0.025
        else if 5 < b then s5 - 0.025
        else s5
    | none => s5
  let s7 := if row.state.toUpper = preferred_state.toUpper then s6 + 0.05 else s6
  max 0 (min 1 s7)

/-- One element of the `predictions` list built by `predict_colleges`
(restricted to the fields the claims mention; the probability and score are
stored rounded to three decimals as in the source dict). -/
structure PredictionEntry where
  institute : String
  admission_probability : ℚ
  predicted_closing_rank : ℤ
  recommendation_score : ℚ

/-- The prediction dict assembled per surviving row
(enhanced_prediction_algorithm.py lines 285-316). -/
def mkPredictionEntry (row : CollegeRow) (admission : AdmissionData)
    (score : ℚ) : PredictionEntry :=
  { institute := row.institute
    admission_probability := round3 admission.overall_probability
    predicted_closing_rank := admission.predicted_closing_rank
    recommendation_score := round3 score }

/-- Embedding of the per-row loop, low-probability filter, stable descending
sort by recommendation score and top-50 truncation of `predict_colleges`
(enhanced_prediction_algorithm.py lines 268-325).  `rows` is the
already-filtered frame in row order; rows whose overall probability is below
0.05 are skipped before scoring (`continue`). -/
def predict_colleges (user_rank : ℤ) (preferred_state : String)
    (rows : List CollegeRow) : List PredictionEntry :=
  let predictions := rows.filterMap fun row =>
    let admission := calculate_admission_probabilities user_rank row.closing_ranks
    if admission.overall_probability < 0.05 then none
    else some (mkPredictionEntry row admission
      (calculate_enhanced_recommendation_score row user_rank admission preferred_state))
  (sortDescBy (fun p => p.recommendation_score) predictions).take 50

/-- C10: for every query the prediction list has at most 50 entries, is sorted
in non-increasing order of recommendation score, and every entry kept has
admission probability at least 0.05 (rows below 0.05 are dropped before
scoring). -/
theorem predict_colleges_spec (user_rank : ℤ) (preferred_state : String)
    (rows : List CollegeRow) :
    (predict_colleges user_rank preferred_state rows).length ≤ 50 ∧
    List.Pairwise (fun a b => b.recommendation_score ≤ a.recommendation_score)
      (predict_colleges user_rank preferred_state rows) ∧
    ∀ p ∈ predict_colleges user_rank preferred_state rows,
      0.05 ≤ p.admission_probability := by
  refine ⟨?_, ?_, ?_⟩
  · show ((sortDescBy _ _).take 50).length ≤ 50
    rw [List.length_take]
    exact min_le_left _ _
  · exact List.Pairwise.sublist (List.take_sublist 50 _)
      (sortDescBy_sorted (fun p : PredictionEntry => p.recommendation_score) _)
  · intro p hp
    have hp1 : p ∈ sortDescBy (fun p : PredictionEntry => p.recommendation_score)
        (rows.filterMap fun row =>
          let admission := calculate_admission_probabilities user_rank row.closing_ranks
          if admission.overall_probability < 0.05 then none
          else some (mkPredictionEntry row admission
            (calculate_enhanced_recommendation_score row user_rank admission
              preferred_state))) :=
      (List.take_sublist 50 _).subset hp
    have hp2 := mem_sortDescBy.mp hp1
    obtain ⟨row, _, hf⟩ := List.mem_filterMap.mp hp2
    dsimp only at hf
    by_cases hlow : (calculate_admission_probabilities user_rank
        row.closing_ranks).overall_probability < 0.05
    · rw [if_pos hlow] at hf
      exact Option.noConfusion hf
    · rw [if_neg hlow] at hf
      have hpe := Option.some.inj hf
      rw [← hpe]
      exact round3_ge_005 (le_of_not_lt hlow)

end MedPath
